import Mathlib

/-!
Verification of the navdoon StatsD server against its specification.

The embedding models the Python source shallowly:
* Python `dict` objects are insertion-ordered association lists
  (`dictGet` / `dictSet` mirror `d[k]` and `d[k] = v`).
* Python floats are modelled as rationals (`ℚ`); the spec itself states
  numeric invariants "mod floating-point associativity error".
* Python `set` objects are duplicate-free lists built by add-if-absent.
* Metric names and set members are Lean `String`s; raw wire data
  (bytes, decoded code points) are `List ℕ`.
-/

namespace Navdoon

/-- Lookup in a Python dict modelled as an association list (`d.get(k)`). -/
def dictGet {α β : Type} [DecidableEq α] (k : α) : List (α × β) → Option β
  | [] => none
  | (k', v) :: t => if k' = k then some v else dictGet k t

/-- Update/insert in a Python dict modelled as an association list
(`d[k] = v`); insertion order is preserved, new keys are appended. -/
def dictSet {α β : Type} [DecidableEq α] (k : α) (v : β) :
    List (α × β) → List (α × β)
  | [] => [(k, v)]
  | (k', v') :: t => if k' = k then (k', v) :: t else (k', v') :: dictSet k v t

/-- Python `set.add`: insert a member unless already present. -/
def pySetAdd {α : Type} [DecidableEq α] (s : List α) (x : α) : List α :=
  if x ∈ s then s else s ++ [x]

/-- The metric kinds of the `statsdmetrics` library that
`StatsShelf._metric_add_methods` dispatches on: `Counter`, `Set`,
`Gauge`, `GaugeDelta`, `Timer`. -/
inductive Metric : Type
  | counter (name : String) (count : ℤ) (sampleRate : ℚ)
  | setM (name : String) (value : String)
  | gauge (name : String) (value : ℚ)
  | gaugeDelta (name : String) (delta : ℚ)
  | timer (name : String) (milliseconds : ℚ)
deriving DecidableEq

/-- The four mutable maps of `StatsShelf` (processor.py). -/
structure StatsShelf : Type where
  counters : List (String × ℚ)
  timers : List (String × List ℚ)
  sets : List (String × List String)
  gauges : List (String × ℚ)
deriving DecidableEq

/-- A fresh shelf: `StatsShelf.__init__`. -/
def StatsShelf.init : StatsShelf := ⟨[], [], [], []⟩

/-- `StatsShelf.clear`: all four maps are replaced by fresh empty dicts. -/
def StatsShelf.clear (_s : StatsShelf) : StatsShelf := ⟨[], [], [], []⟩

/-- `StatsShelf._add_counter`: `counters[name] = 0` when absent, then
`counters[name] += counter.count / counter.sample_rate`. -/
def StatsShelf.addCounter (s : StatsShelf) (name : String) (count : ℤ)
    (sampleRate : ℚ) : StatsShelf :=
  let prev := match dictGet name s.counters with
    | none => 0
    | some v => v
  { s with counters := dictSet name (prev + (count : ℚ) / sampleRate) s.counters }

/-- `StatsShelf._add_set`: `sets.setdefault(name, set()).add(value)`. -/
def StatsShelf.addSet (s : StatsShelf) (name : String) (value : String) :
    StatsShelf :=
  let prev := match dictGet name s.sets with
    | none => []
    | some m => m
  { s with sets := dictSet name (pySetAdd prev value) s.sets }

/-- `StatsShelf._add_gauge`: `gauges[name] = value` (overwrite). -/
def StatsShelf.addGauge (s : StatsShelf) (name : String) (value : ℚ) :
    StatsShelf :=
  { s with gauges := dictSet name value s.gauges }

/-- `StatsShelf._add_gauge_delta`: set to the delta when the name is
absent, otherwise add the delta. -/
def StatsShelf.addGaugeDelta (s : StatsShelf) (name : String) (delta : ℚ) :
    StatsShelf :=
  match dictGet name s.gauges with
  | none => { s with gauges := dictSet name delta s.gauges }
  | some v => { s with gauges := dictSet name (v + delta) s.gauges }

/-- `StatsShelf._add_timer`: `timers.setdefault(name, []).append(ms)`. -/
def StatsShelf.addTimer (s : StatsShelf) (name : String) (ms : ℚ) :
    StatsShelf :=
  let prev := match dictGet name s.timers with
    | none => []
    | some l => l
  { s with timers := dictSet name (prev ++ [ms]) s.timers }

/-- `StatsShelf.add`: dispatch on the metric class. -/
def StatsShelf.add (s : StatsShelf) : Metric → StatsShelf
  | .counter name count rate => s.addCounter name count rate
  | .setM name value => s.addSet name value
  | .gauge name value => s.addGauge name value
  | .gaugeDelta name delta => s.addGaugeDelta name delta
  | .timer name ms => s.addTimer name ms

/-- Add a whole sequence of metrics to the shelf, in order. -/
def StatsShelf.addAll (s : StatsShelf) (ms : List Metric) : StatsShelf :=
  ms.foldl StatsShelf.add s

-- ### Counter aggregation (claim C1)

/-- The contribution of one counter sample, `count / sample_rate`. -/
def counterContribution (count : ℤ) (sampleRate : ℚ) : ℚ :=
  (count : ℚ) / sampleRate

/-- Sum of `count_i / rate_i` over the counter samples of `name` in `ms`. -/
def counterSum (name : String) : List Metric → ℚ
  | [] => 0
  | .counter n c r :: t =>
      (if n = name then counterContribution c r else 0) + counterSum name t
  | _ :: t => counterSum name t

/-- Whether `ms` contains a counter sample named `name`. -/
def hasCounterSample (name : String) : List Metric → Bool
  | [] => false
  | .counter n _ _ :: t => n = name || hasCounterSample name t
  | _ :: t => hasCounterSample name t

theorem dictGet_dictSet_self {α β : Type} [DecidableEq α] (k : α) (v : β)
    (l : List (α × β)) : dictGet k (dictSet k v l) = some v := by
  induction l with
  | nil => simp [dictGet, dictSet]
  | cons h t ih =>
      obtain ⟨k', v'⟩ := h
      by_cases hk : k' = k <;> simp [dictGet, dictSet, hk, ih]

theorem dictGet_dictSet_ne {α β : Type} [DecidableEq α] {k k' : α} (v : β)
    (l : List (α × β)) (h : k' ≠ k) :
    dictGet k (dictSet k' v l) = dictGet k l := by
  induction l with
  | nil => simp [dictGet, dictSet, h]
  | cons hd t ih =>
      obtain ⟨k'', v''⟩ := hd
      by_cases hk : k'' = k'
      · subst hk
        simp [dictGet, dictSet, h]
      · by_cases hk2 : k'' = k <;>
          simp [dictGet, dictSet, hk, hk2, ih, Ne.symm h]

/-- Core induction for counters: folding counter samples over any shelf. -/
theorem counters_fold (ms : List Metric) (s : StatsShelf) (name : String) :
    dictGet name (s.addAll ms).counters =
      match dictGet name s.counters with
      | some v => some (v + counterSum name ms)
      | none =>
          if hasCounterSample name ms then some (counterSum name ms) else none
  := by
  induction ms generalizing s with
  | nil =>
      cases h : dictGet name s.counters <;>
        simp [StatsShelf.addAll, counterSum, hasCounterSample, h]
  | cons m t ih =>
      have step : (s.addAll (m :: t)) = (s.add m).addAll t := by
        simp [StatsShelf.addAll]
      rw [step]
      cases m with
      | counter n c r =>
          by_cases hn : n = name
          · subst hn
            rw [ih]
            cases h : dictGet n s.counters with
            | none =>
                simp [StatsShelf.add, StatsShelf.addCounter, h,
                  dictGet_dictSet_self, counterSum, hasCounterSample,
                  counterContribution]
            | some v =>
                simp [StatsShelf.add, StatsShelf.addCounter, h,
                  dictGet_dictSet_self, counterSum, hasCounterSample,
                  counterContribution]
                ring
          · rw [ih]
            have hset : dictGet name ((s.add (Metric.counter n c r)).counters) =
                dictGet name s.counters := by
              cases h : dictGet n s.counters <;>
                simp [StatsShelf.add, StatsShelf.addCounter, h,
                  dictGet_dictSet_ne _ _ hn]
            rw [hset]
            cases h : dictGet name s.counters <;>
              simp [counterSum, hasCounterSample, hn]
      | setM n v =>
          rw [ih]
          simp [StatsShelf.add, StatsShelf.addSet, counterSum, hasCounterSample]
      | gauge n v =>
          rw [ih]
          simp [StatsShelf.add, StatsShelf.addGauge, counterSum, hasCounterSample]
      | gaugeDelta n d =>
          rw [ih]
          cases h : dictGet n s.gauges <;>
            simp [StatsShelf.add, StatsShelf.addGaugeDelta, h, counterSum,
              hasCounterSample]
      | timer n msec =>
          rw [ih]
          simp [StatsShelf.add, StatsShelf.addTimer, counterSum, hasCounterSample]

/-- C1: after any sequence of counter samples (name, integer count,
sample rate in (0,1]) is added to a freshly cleared shelf, the shelf's
counter value for each name equals the sum of `count_i / sampleRate_i`
over the samples with that name (and a name with no sample is absent). -/
theorem counter_total_eq_sum_of_contributions
    (s : StatsShelf) (samples : List (String × ℤ × ℚ))
    (hrate : ∀ p ∈ samples, 0 < p.2.2 ∧ p.2.2 ≤ 1) (name : String) :
    dictGet name ((s.clear).addAll
        (samples.map (fun p => Metric.counter p.1 p.2.1 p.2.2))).counters =
      (if hasCounterSample name
          (samples.map (fun p => Metric.counter p.1 p.2.1 p.2.2)) then
        some (counterSum name
          (samples.map (fun p => Metric.counter p.1 p.2.1 p.2.2)))
      else none) := by
  rw [counters_fold]
  simp [StatsShelf.clear, dictGet]

/-- Witness for C1 at a concrete sample sequence: two samples named "a"
(1 at rate 1/2, 3 at rate 1) and one named "b" give counter a = 5. -/
theorem counter_total_witness :
    dictGet "a" ((StatsShelf.init.clear).addAll
        (([("a", (1 : ℤ), (1 : ℚ)/2), ("a", 3, 1), ("b", 2, 1)]).map
          (fun p => Metric.counter p.1 p.2.1 p.2.2))).counters = some 5 := by
  rw [counter_total_eq_sum_of_contributions StatsShelf.init
    [("a", (1 : ℤ), (1 : ℚ)/2), ("a", 3, 1), ("b", 2, 1)]
    (by norm_num [List.forall_mem_cons]) "a"]
  norm_num [hasCounterSample, counterSum, counterContribution]
  rw [if_neg (by decide : ¬(("b" : String) = "a"))]
  norm_num

-- ### Gauge semantics (claim C3)

/-- Helper: applying a sequence of gauge deltas to a shelf whose gauge for
`name` currently reads `acc` yields `acc` plus the sum of the deltas. -/
theorem gauge_fold_deltas (name : String) (ds : List ℚ) (s : StatsShelf)
    (acc : ℚ) (h : dictGet name s.gauges = some acc) :
    dictGet name (s.addAll (ds.map (Metric.gaugeDelta name))).gauges =
      some (acc + ds.sum) := by
  induction ds generalizing s acc with
  | nil => simpa [StatsShelf.addAll] using h
  | cons d t ih =>
      have step : dictGet name
          ((s.add (Metric.gaugeDelta name d))).gauges = some (acc + d) := by
        simp [StatsShelf.add, StatsShelf.addGaugeDelta, h, dictGet_dictSet_self]
      have := ih (s.add (Metric.gaugeDelta name d)) (acc + d) step
      simp only [StatsShelf.addAll, List.map_cons, List.foldl_cons] at this ⊢
      rw [this]
      simp [List.sum_cons]
      ring

/-- C3: gauge semantics. An absolute gauge overwrites; a delta on an
absent name sets the value; a delta on a present name adds. Hence a
pure-delta history from a cleared shelf reads the sum of the deltas, and
any history ending in an absolute value reads that value regardless of
every preceding sample. -/
theorem gauge_semantics (name : String) :
    (∀ (s : StatsShelf) (v : ℚ),
        dictGet name (s.addGauge name v).gauges = some v)
    ∧ (∀ (s : StatsShelf) (d : ℚ), dictGet name s.gauges = none →
        dictGet name (s.addGaugeDelta name d).gauges = some d)
    ∧ (∀ (s : StatsShelf) (d v : ℚ), dictGet name s.gauges = some v →
        dictGet name (s.addGaugeDelta name d).gauges = some (v + d))
    ∧ (∀ (s : StatsShelf) (ds : List ℚ), ds ≠ [] →
        dictGet name
          ((s.clear).addAll (ds.map (Metric.gaugeDelta name))).gauges =
          some ds.sum)
    ∧ (∀ (s : StatsShelf) (hist : List Metric) (v : ℚ),
        dictGet name (s.addAll (hist ++ [Metric.gauge name v])).gauges =
          some v) := by
  refine ⟨?_, ?_, ?_, ?_, ?_⟩
  · intro s v
    simp [StatsShelf.addGauge, dictGet_dictSet_self]
  · intro s d h
    simp [StatsShelf.addGaugeDelta, h, dictGet_dictSet_self]
  · intro s d v h
    simp [StatsShelf.addGaugeDelta, h, dictGet_dictSet_self]
  · intro s ds hne
    cases ds with
    | nil => exact absurd rfl hne
    | cons d t =>
        have first : dictGet name
            (((s.clear).add (Metric.gaugeDelta name d))).gauges = some d := by
          simp [StatsShelf.clear, StatsShelf.add, StatsShelf.addGaugeDelta,
            dictGet, dictGet_dictSet_self]
        have := gauge_fold_deltas name t ((s.clear).add (Metric.gaugeDelta name d))
          d first
        simp only [StatsShelf.addAll, List.map_cons, List.foldl_cons] at this ⊢
        rw [this, List.sum_cons]
  · intro s hist v
    have : s.addAll (hist ++ [Metric.gauge name v]) =
        (s.addAll hist).add (Metric.gauge name v) := by
      simp [StatsShelf.addAll]
    rw [this]
    simp [StatsShelf.add, StatsShelf.addGauge, dictGet_dictSet_self]

/-- Witness for C3: a pure-delta history [5, -2] on a cleared shelf reads
3, and the history [delta 5, absolute 20] reads 20. -/
theorem gauge_semantics_witness :
    dictGet "g" ((StatsShelf.init.clear).addAll
        (([5, -2] : List ℚ).map (Metric.gaugeDelta "g"))).gauges = some 3
    ∧ dictGet "g" (StatsShelf.init.addAll
        ([Metric.gaugeDelta "g" 5] ++ [Metric.gauge "g" 20])).gauges =
        some 20 := by
  constructor
  · have := (gauge_semantics "g").2.2.2.1 StatsShelf.init
      ([5, -2] : List ℚ) (by decide)
    rw [this]
    norm_num
  · exact (gauge_semantics "g").2.2.2.2 StatsShelf.init
      [Metric.gaugeDelta "g" 5] 20

-- ### DataSeries (utils/common.py) and timer statistics

/-- `DataSeries`: `_count` is the length of the input, `_data` a sorted
copy of the input (`sorted(data)`). -/
structure DataSeries : Type where
  count : ℕ
  data : List ℚ
deriving DecidableEq

/-- `DataSeries.__init__`: raises `ValueError` on an empty data set,
otherwise stores the length and the sorted data. -/
def DataSeries.make (data : List ℚ) : Except String DataSeries :=
  if data.length < 1 then
    Except.error "Can not create a series from an empty data set"
  else Except.ok ⟨data.length, data.insertionSort (· ≤ ·)⟩

/-- `DataSeries.min`: `min(self._data)` (0 on the unreachable empty case,
where Python `min` would raise). -/
def DataSeries.minVal (s : DataSeries) : ℚ :=
  match s.data with
  | [] => 0
  | h :: t => t.foldl min h

/-- `DataSeries.max`: `max(self._data)`. -/
def DataSeries.maxVal (s : DataSeries) : ℚ :=
  match s.data with
  | [] => 0
  | h :: t => t.foldl max h

/-- `DataSeries.mean`: `sum(self._data) / self._count`. -/
def DataSeries.mean (s : DataSeries) : ℚ := s.data.sum / s.count

/-- `DataSeries.median`: the source formula. For `count == 2` the mean;
otherwise the element at `count // 2`, except that when
`count // 2 < count - 1` and `count` is even it returns the mean of the
elements at indexes `count // 2` and `count // 2 + 1` of the sorted data
(list indexing modelled by `getD`; all accesses are in bounds). -/
def DataSeries.median (s : DataSeries) : ℚ :=
  if s.count = 2 then s.mean
  else
    let lastIndex := s.count - 1
    let middleIndex := s.count / 2
    if middleIndex < lastIndex ∧ s.count % 2 = 0 then
      (s.data.getD middleIndex 0 + s.data.getD (middleIndex + 1) 0) / 2
    else s.data.getD middleIndex 0

/-- The five-statistic record `StatsShelf.timers` builds per timer name:
`dict(count=..., min=..., max=..., mean=..., median=...)`. -/
structure TimerStats : Type where
  count : ℕ
  min : ℚ
  max : ℚ
  mean : ℚ
  median : ℚ
deriving DecidableEq

/-- The statistics record of one `DataSeries`. -/
def DataSeries.stats (s : DataSeries) : TimerStats :=
  ⟨s.count, s.minVal, s.maxVal, s.mean, s.median⟩

/-- `StatsShelf.timers`: build the per-name statistics dict; `none` models
the `ValueError` raised by `DataSeries.__init__` on an empty value list. -/
def timersStats : List (String × List ℚ) → Option (List (String × TimerStats))
  | [] => some []
  | (n, data) :: t =>
      match DataSeries.make data with
      | Except.error _ => none
      | Except.ok series =>
          match timersStats t with
          | none => none
          | some r => some ((n, series.stats) :: r)

/-- `QueueProcessor._get_metrics_and_clear_shelf`: read the four maps,
clear the shelf, and emit `(name, value, timestamp)` records — counters,
then gauges, then sets as `len(values)`, then each timer expanded into its
five suffixed statistics. `none` models the `ValueError` from an empty
timer value list propagating out. -/
def getMetricsAndClearShelf (s : StatsShelf) (timestamp : ℚ) :
    Option (List (String × ℚ × ℚ) × StatsShelf) :=
  match timersStats s.timers with
  | none => none
  | some tstats =>
      some ((s.counters.map (fun p => (p.1, p.2, timestamp)))
        ++ (s.gauges.map (fun p => (p.1, p.2, timestamp)))
        ++ (s.sets.map (fun p => (p.1, ((p.2.length : ℚ), timestamp))))
        ++ (tstats.map (fun p =>
              [(p.1 ++ ".count", ((p.2.count : ℚ), timestamp)),
               (p.1 ++ ".min", (p.2.min, timestamp)),
               (p.1 ++ ".max", (p.2.max, timestamp)),
               (p.1 ++ ".mean", (p.2.mean, timestamp)),
               (p.1 ++ ".median", (p.2.median, timestamp))])).flatten,
        s.clear)

-- ### Set aggregation (claim C4)

/-- The members observed for `name` in a sequence of set samples. -/
def membersOf (name : String) (samples : List (String × String)) :
    List String :=
  (samples.filter (fun p => decide (p.1 = name))).map Prod.snd

theorem mem_pySetAdd {α : Type} [DecidableEq α] (l : List α) (a x : α) :
    x ∈ pySetAdd l a ↔ x ∈ l ∨ x = a := by
  by_cases h : a ∈ l
  · simp only [pySetAdd, if_pos h]
    constructor
    · exact Or.inl
    · rintro (hx | rfl) <;> assumption
  · simp [pySetAdd, if_neg h]

theorem pySetAdd_nodup {α : Type} [DecidableEq α] (l : List α) (a : α)
    (h : l.Nodup) : (pySetAdd l a).Nodup := by
  by_cases ha : a ∈ l
  · simpa [pySetAdd, if_pos ha]
  · simp [pySetAdd, if_neg ha, List.nodup_append, h, ha]

theorem mem_foldl_pySetAdd {α : Type} [DecidableEq α] (ms : List α)
    (l : List α) (x : α) :
    x ∈ ms.foldl pySetAdd l ↔ x ∈ l ∨ x ∈ ms := by
  induction ms generalizing l with
  | nil => simp
  | cons m t ih =>
      simp only [List.foldl_cons, ih, mem_pySetAdd, List.mem_cons]
      tauto

theorem foldl_pySetAdd_nodup {α : Type} [DecidableEq α] (ms : List α)
    (l : List α) (h : l.Nodup) : (ms.foldl pySetAdd l).Nodup := by
  induction ms generalizing l with
  | nil => simpa
  | cons m t ih => exact ih _ (pySetAdd_nodup _ _ h)

theorem dictGet_mem {α β : Type} [DecidableEq α] {k : α} {v : β}
    {l : List (α × β)} (h : dictGet k l = some v) : (k, v) ∈ l := by
  induction l with
  | nil => simp [dictGet] at h
  | cons hd t ih =>
      obtain ⟨k', v'⟩ := hd
      by_cases hk : k' = k
      · subst hk
        simp [dictGet] at h
        simp [h]
      · simp [dictGet, hk] at h
        exact List.mem_cons_of_mem _ (ih h)

/-- Folding set samples over a shelf: effect on the sets map of one name. -/
theorem sets_fold (samples : List (String × String)) (s : StatsShelf)
    (name : String) :
    dictGet name
        ((s.addAll (samples.map (fun p => Metric.setM p.1 p.2)))).sets =
      match dictGet name s.sets with
      | some l => some ((membersOf name samples).foldl pySetAdd l)
      | none =>
          if membersOf name samples = [] then none
          else some ((membersOf name samples).foldl pySetAdd []) := by
  induction samples generalizing s with
  | nil =>
      cases h : dictGet name s.sets <;>
        simp [StatsShelf.addAll, membersOf, h]
  | cons p t ih =>
      obtain ⟨n, v⟩ := p
      have step : s.addAll ((⟨n, v⟩ :: t).map (fun p => Metric.setM p.1 p.2)) =
          (s.add (Metric.setM n v)).addAll
            (t.map (fun p => Metric.setM p.1 p.2)) := by
        simp [StatsShelf.addAll]
      rw [step, ih]
      by_cases hn : n = name
      · subst hn
        have hmem : membersOf n (⟨n, v⟩ :: t) = v :: membersOf n t := by
          simp [membersOf]
        cases h : dictGet n s.sets with
        | none =>
            simp [StatsShelf.add, StatsShelf.addSet, h, dictGet_dictSet_self,
              hmem]
        | some l =>
            simp [StatsShelf.add, StatsShelf.addSet, h, dictGet_dictSet_self,
              hmem]
      · have hmem : membersOf name (⟨n, v⟩ :: t) = membersOf name t := by
          simp [membersOf, hn]
        have hget : dictGet name ((s.add (Metric.setM n v))).sets =
            dictGet name s.sets := by
          cases h : dictGet n s.sets <;>
            simp [StatsShelf.add, StatsShelf.addSet, h,
              dictGet_dictSet_ne _ _ hn]
        rw [hget, hmem]

/-- Set samples do not touch the other three maps. -/
theorem sets_only_touch_sets (samples : List (String × String))
    (s : StatsShelf) :
    ((s.addAll (samples.map (fun p => Metric.setM p.1 p.2)))).counters =
        s.counters
      ∧ ((s.addAll (samples.map (fun p => Metric.setM p.1 p.2)))).gauges =
        s.gauges
      ∧ ((s.addAll (samples.map (fun p => Metric.setM p.1 p.2)))).timers =
        s.timers := by
  induction samples generalizing s with
  | nil => simp [StatsShelf.addAll]
  | cons p t ih =>
      have step : s.addAll ((p :: t).map (fun q => Metric.setM q.1 q.2)) =
          (s.add (Metric.setM p.1 p.2)).addAll
            (t.map (fun q => Metric.setM q.1 q.2)) := by
        simp [StatsShelf.addAll]
      rw [step]
      have := ih (s.add (Metric.setM p.1 p.2))
      simpa [StatsShelf.add, StatsShelf.addSet] using this

/-- C4: after any sequence of set samples on a cleared shelf, the shelf's
set for a name is exactly the distinct members observed for that name,
and the snapshot emits the cardinality of that set as the name's value. -/
theorem set_members_distinct_and_cardinality
    (s : StatsShelf) (samples : List (String × String)) (name : String)
    (ts : ℚ) :
    (membersOf name samples = [] →
      dictGet name
        ((s.clear).addAll (samples.map (fun p => Metric.setM p.1 p.2))).sets
        = none)
    ∧ (membersOf name samples ≠ [] → ∃ l,
        dictGet name
          ((s.clear).addAll (samples.map (fun p => Metric.setM p.1 p.2))).sets
          = some l
        ∧ (∀ x, x ∈ l ↔ x ∈ membersOf name samples)
        ∧ l.Nodup
        ∧ l.length = (membersOf name samples).toFinset.card
        ∧ ∃ metrics shelf',
            getMetricsAndClearShelf
              ((s.clear).addAll (samples.map (fun p => Metric.setM p.1 p.2)))
              ts = some (metrics, shelf')
            ∧ (name, ((l.length : ℚ), ts)) ∈ metrics) := by
  have hfold := sets_fold samples (s.clear) name
  have hget0 : dictGet name (StatsShelf.clear s).sets = none := by
    simp [StatsShelf.clear, dictGet]
  rw [hget0] at hfold
  constructor
  · intro hempty
    rw [hfold, if_pos hempty]
  · intro hne
    refine ⟨(membersOf name samples).foldl pySetAdd [], ?_, ?_, ?_, ?_, ?_⟩
    · rw [hfold, if_neg hne]
    · intro x
      simp [mem_foldl_pySetAdd]
    · exact foldl_pySetAdd_nodup _ _ List.nodup_nil
    · have hnd := foldl_pySetAdd_nodup (membersOf name samples) []
        List.nodup_nil
      have hsetEq : ((membersOf name samples).foldl pySetAdd []).toFinset =
          (membersOf name samples).toFinset := by
        ext x
        simp [List.mem_toFinset, mem_foldl_pySetAdd]
      calc ((membersOf name samples).foldl pySetAdd []).length
          = ((membersOf name samples).foldl pySetAdd []).toFinset.card :=
            (List.toFinset_card_of_nodup hnd).symm
        _ = (membersOf name samples).toFinset.card := by rw [hsetEq]
    · obtain ⟨hc, hg, ht⟩ := sets_only_touch_sets samples (s.clear)
      have htimers : ((s.clear).addAll
          (samples.map (fun p => Metric.setM p.1 p.2))).timers = [] := by
        rw [ht]; rfl
      have hmetrics : getMetricsAndClearShelf
          ((s.clear).addAll (samples.map (fun p => Metric.setM p.1 p.2))) ts =
          some ((((s.clear).addAll
              (samples.map (fun p => Metric.setM p.1 p.2))).sets.map
                (fun p => (p.1, ((p.2.length : ℚ), ts)))),
            (((s.clear).addAll
              (samples.map (fun p => Metric.setM p.1 p.2)))).clear) := by
        rw [getMetricsAndClearShelf, htimers, hc, hg]
        simp [StatsShelf.clear, timersStats]
      refine ⟨_, _, hmetrics, ?_⟩
      have hmem : (name, (membersOf name samples).foldl pySetAdd []) ∈
          ((s.clear).addAll
            (samples.map (fun p => Metric.setM p.1 p.2))).sets := by
        apply dictGet_mem
        rw [hfold, if_neg hne]
      exact List.mem_map_of_mem
        (fun p => (p.1, ((p.2.length : ℚ), ts))) hmem

/-- Witness for C4: samples alice, bob, alice for set "u" give a stored
set of exactly the two distinct members and a snapshot value of 2. -/
theorem set_members_witness :
    ∃ l, dictGet "u" ((StatsShelf.init.clear).addAll
        (([("u", "alice"), ("u", "bob"), ("u", "alice")]).map
          (fun p => Metric.setM p.1 p.2))).sets = some l
      ∧ (∀ x, x ∈ l ↔
          x ∈ membersOf "u" [("u", "alice"), ("u", "bob"), ("u", "alice")])
      ∧ l.Nodup
      ∧ l.length =
          (membersOf "u"
            [("u", "alice"), ("u", "bob"), ("u", "alice")]).toFinset.card
      ∧ ∃ metrics shelf',
          getMetricsAndClearShelf ((StatsShelf.init.clear).addAll
              (([("u", "alice"), ("u", "bob"), ("u", "alice")]).map
                (fun p => Metric.setM p.1 p.2))) 0 = some (metrics, shelf')
          ∧ ("u", ((l.length : ℚ), 0)) ∈ metrics :=
  (set_members_distinct_and_cardinality StatsShelf.init
    [("u", "alice"), ("u", "bob"), ("u", "alice")] "u" 0).2 (by decide)

-- ### Timer shelf contents and statistics (claims C2 and C10)

theorem mem_dictSet {α β : Type} [DecidableEq α] {k : α} {v : β}
    {l : List (α × β)} {p : α × β} (h : p ∈ dictSet k v l) :
    p = (k, v) ∨ p ∈ l := by
  induction l with
  | nil => simpa [dictSet] using h
  | cons hd t ih =>
      obtain ⟨k', v'⟩ := hd
      by_cases hk : k' = k
      · subst hk
        simp only [dictSet, if_true, eq_self_iff_true, List.mem_cons] at h
        rcases h with h | h
        · exact Or.inl h
        · exact Or.inr (List.mem_cons_of_mem _ h)
      · simp only [dictSet, if_neg hk, List.mem_cons] at h
        rcases h with h | h
        · exact Or.inr (by simp [h])
        · rcases ih h with h' | h'
          · exact Or.inl h'
          · exact Or.inr (List.mem_cons_of_mem _ h')

/-- Folding timer samples of one name over a shelf whose timers map holds
exactly that name appends the samples in arrival order. -/
theorem timers_fold_single (name : String) (xs : List ℚ) (s : StatsShelf)
    (acc : List ℚ) (h : s.timers = [(name, acc)]) :
    (s.addAll (xs.map (Metric.timer name))).timers = [(name, acc ++ xs)] := by
  induction xs generalizing s acc with
  | nil => simpa [StatsShelf.addAll] using h
  | cons x t ih =>
      have step : ((s.add (Metric.timer name x))).timers =
          [(name, acc ++ [x])] := by
        simp [StatsShelf.add, StatsShelf.addTimer, h, dictGet, dictSet]
      have := ih (s.add (Metric.timer name x)) (acc ++ [x]) step
      simp only [StatsShelf.addAll, List.map_cons, List.foldl_cons] at this ⊢
      simpa using this

/-- The timers map after adding a non-empty run of timer samples of one
name to a fresh shelf is exactly that name bound to the sample list. -/
theorem timers_of_addAll (name : String) (data : List ℚ) (h : data ≠ []) :
    ((StatsShelf.init).addAll (data.map (Metric.timer name))).timers =
      [(name, data)] := by
  cases data with
  | nil => exact absurd rfl h
  | cons d t =>
      have first : ((StatsShelf.init).add (Metric.timer name d)).timers =
          [(name, [d])] := by
        simp [StatsShelf.init, StatsShelf.add, StatsShelf.addTimer, dictGet,
          dictSet]
      have := timers_fold_single name t ((StatsShelf.init).add
        (Metric.timer name d)) [d] first
      simp only [StatsShelf.addAll, List.map_cons, List.foldl_cons] at this ⊢
      simpa using this

theorem foldl_min_mem_and_le (t : List ℚ) (h : ℚ) :
    t.foldl min h ∈ h :: t ∧ ∀ x ∈ h :: t, t.foldl min h ≤ x := by
  induction t generalizing h with
  | nil => simp
  | cons a t ih =>
      obtain ⟨ihm, ihl⟩ := ih (min h a)
      constructor
      · simp only [List.foldl_cons]
        rcases List.mem_cons.mp ihm with hm | hm
        · rw [hm]
          rcases min_choice h a with hc | hc
          · rw [hc]; exact List.mem_cons_self _ _
          · rw [hc]; exact List.mem_cons_of_mem _ (List.mem_cons_self _ _)
        · exact List.mem_cons_of_mem _ (List.mem_cons_of_mem _ hm)
      · intro x hx
        simp only [List.foldl_cons]
        rcases List.mem_cons.mp hx with rfl | hx'
        · exact le_trans (ihl (min x a) (List.mem_cons_self _ _))
            (min_le_left _ _)
        · rcases List.mem_cons.mp hx' with rfl | hx''
          · exact le_trans (ihl (min h x) (List.mem_cons_self _ _))
              (min_le_right _ _)
          · exact ihl x (List.mem_cons_of_mem _ hx'')

theorem foldl_max_mem_and_ge (t : List ℚ) (h : ℚ) :
    t.foldl max h ∈ h :: t ∧ ∀ x ∈ h :: t, x ≤ t.foldl max h := by
  induction t generalizing h with
  | nil => simp
  | cons a t ih =>
      obtain ⟨ihm, ihl⟩ := ih (max h a)
      constructor
      · simp only [List.foldl_cons]
        rcases List.mem_cons.mp ihm with hm | hm
        · rw [hm]
          rcases max_choice h a with hc | hc
          · rw [hc]; exact List.mem_cons_self _ _
          · rw [hc]; exact List.mem_cons_of_mem _ (List.mem_cons_self _ _)
        · exact List.mem_cons_of_mem _ (List.mem_cons_of_mem _ hm)
      · intro x hx
        simp only [List.foldl_cons]
        rcases List.mem_cons.mp hx with rfl | hx'
        · exact le_trans (le_max_left _ _)
            (ihl (max x a) (List.mem_cons_self _ _))
        · rcases List.mem_cons.mp hx' with rfl | hx''
          · exact le_trans (le_max_right _ _)
              (ihl (max h x) (List.mem_cons_self _ _))
          · exact ihl x (List.mem_cons_of_mem _ hx'')

/-- The spec's reference median formula (§4.2), written from the spec's
words for comparison with the code: for N==1 the element; for N==2 the
mean of the two; for odd N the middle element of the sorted list; for
even N>2 the mean of the two middle elements after sorting. -/
def specRefMedian (data : List ℚ) : ℚ :=
  let n := data.length
  let sorted := data.insertionSort (· ≤ ·)
  if n = 1 then sorted.getD 0 0
  else if n = 2 then (sorted.getD 0 0 + sorted.getD 1 0) / 2
  else if n % 2 = 1 then sorted.getD (n / 2) 0
  else (sorted.getD (n / 2 - 1) 0 + sorted.getD (n / 2) 0) / 2

/-- The median formula the code actually implements: as the spec's
reference formula except that for even N>2 it averages the sorted
elements at zero-based indexes N/2 and N/2+1 (one position to the right
of the two middle elements). -/
def amendedMedian (data : List ℚ) : ℚ :=
  let n := data.length
  let sorted := data.insertionSort (· ≤ ·)
  if n = 1 then sorted.getD 0 0
  else if n = 2 then (sorted.getD 0 0 + sorted.getD 1 0) / 2
  else if n % 2 = 1 then sorted.getD (n / 2) 0
  else (sorted.getD (n / 2) 0 + sorted.getD (n / 2 + 1) 0) / 2

theorem median_eq_amended (data : List ℚ) (h : data ≠ []) :
    (DataSeries.mk data.length (data.insertionSort (· ≤ ·))).median =
      amendedMedian data := by
  have hlen : 0 < data.length := List.length_pos.mpr h
  rcases Nat.lt_or_ge data.length 3 with h3 | h3
  · interval_cases hn : data.length
    · -- N = 1
      simp [DataSeries.median, amendedMedian, hn]
    · -- N = 2
      have hsl : (data.insertionSort (· ≤ ·)).length = 2 := by
        rw [(List.perm_insertionSort (· ≤ ·) data).length_eq, hn]
      obtain ⟨a, b, hab⟩ := List.length_eq_two.mp hsl
      simp [DataSeries.median, amendedMedian, hn, DataSeries.mean, hab]
  · rcases Nat.even_or_odd data.length with he | ho
    · -- even N ≥ 4
      have hmod : data.length % 2 = 0 := Nat.even_iff.mp he
      have h4 : 4 ≤ data.length := by omega
      have hcond : data.length / 2 < data.length - 1 := by omega
      simp only [DataSeries.median, amendedMedian]
      rw [if_neg (by omega : ¬ data.length = 2),
        if_pos ⟨hcond, hmod⟩,
        if_neg (by omega : ¬ data.length = 1),
        if_neg (by omega : ¬ data.length = 2),
        if_neg (by omega : ¬ data.length % 2 = 1)]
    · -- odd N ≥ 3
      have hmod : data.length % 2 = 1 := Nat.odd_iff.mp ho
      simp only [DataSeries.median, amendedMedian]
      rw [if_neg (by omega : ¬ data.length = 2),
        if_neg (by simp [hmod] : ¬ (data.length / 2 < data.length - 1
          ∧ data.length % 2 = 0)),
        if_neg (by omega : ¬ data.length = 1),
        if_neg (by omega : ¬ data.length = 2),
        if_pos hmod]

/-- C2 counterexample: for the four timer samples 1, 2, 3, 4 the snapshot
median is 7/2 — the mean of the sorted elements at indexes 2 and 3 — while
the spec's reference formula (the two middle elements) gives 5/2. -/
theorem timer_median_counterexample :
    timersStats (((StatsShelf.init).addAll
        (([1, 2, 3, 4] : List ℚ).map (Metric.timer "t"))).timers) =
      some [("t", ⟨4, 1, 4, 5/2, 7/2⟩)]
    ∧ specRefMedian [1, 2, 3, 4] = 5/2
    ∧ ((7 : ℚ)/2) ≠ 5/2 := by
  have ht := timers_of_addAll "t" ([1, 2, 3, 4] : List ℚ) (by simp)
  refine ⟨?_, ?_, by norm_num⟩
  · rw [ht]
    norm_num [timersStats, DataSeries.make, DataSeries.stats,
      DataSeries.minVal, DataSeries.maxVal, DataSeries.mean,
      DataSeries.median, List.insertionSort, List.orderedInsert]
  · norm_num [specRefMedian, List.insertionSort, List.orderedInsert]

/-- C2 amended: for every non-empty run of timer samples of one name, the
snapshot statistics satisfy: count is the number of samples, min and max
are the extremes, mean is the sum divided by the count, and the median
follows the source's index choice (for even N>2, the mean of the sorted
elements at indexes N/2 and N/2+1 rather than the two middle ones). -/
theorem timer_stats_formulas (name : String) (data : List ℚ)
    (h : data ≠ []) :
    ∃ stats : TimerStats,
      timersStats (((StatsShelf.init).addAll
          (data.map (Metric.timer name))).timers) = some [(name, stats)]
      ∧ stats.count = data.length
      ∧ stats.min ∈ data ∧ (∀ x ∈ data, stats.min ≤ x)
      ∧ stats.max ∈ data ∧ (∀ x ∈ data, x ≤ stats.max)
      ∧ stats.mean = data.sum / data.length
      ∧ stats.median = amendedMedian data := by
  have hperm := List.perm_insertionSort (· ≤ ·) data
  have hpos : 0 < data.length := List.length_pos.mpr h
  have hlen : ¬ (data.length < 1) := by omega
  have hmk : DataSeries.make data =
      Except.ok ⟨data.length, data.insertionSort (· ≤ ·)⟩ := by
    rw [DataSeries.make, if_neg hlen]
  have hsne : data.insertionSort (· ≤ ·) ≠ [] := by
    intro hnil
    rw [hnil] at hperm
    exact h (List.Perm.eq_nil hperm.symm)
  obtain ⟨hd, tl, hs⟩ : ∃ hd tl, data.insertionSort (· ≤ ·) = hd :: tl := by
    cases hcase : data.insertionSort (· ≤ ·) with
    | nil => exact absurd hcase hsne
    | cons a b => exact ⟨a, b, rfl⟩
  have hmin := foldl_min_mem_and_le tl hd
  have hmax := foldl_max_mem_and_ge tl hd
  have hmem : ∀ x : ℚ, x ∈ hd :: tl ↔ x ∈ data := by
    intro x
    rw [← hs]
    exact hperm.mem_iff
  refine ⟨(DataSeries.mk data.length (data.insertionSort (· ≤ ·))).stats,
    ?_, rfl, ?_, ?_, ?_, ?_, ?_, ?_⟩
  · rw [timers_of_addAll name data h]
    rw [timersStats, hmk, timersStats]
  · simp only [DataSeries.stats, DataSeries.minVal, hs]
    exact (hmem _).mp hmin.1
  · intro x hx
    simp only [DataSeries.stats, DataSeries.minVal, hs]
    exact hmin.2 x ((hmem x).mpr hx)
  · simp only [DataSeries.stats, DataSeries.maxVal, hs]
    exact (hmem _).mp hmax.1
  · intro x hx
    simp only [DataSeries.stats, DataSeries.maxVal, hs]
    exact hmax.2 x ((hmem x).mpr hx)
  · simp only [DataSeries.stats, DataSeries.mean]
    rw [hperm.sum_eq]
  · simp only [DataSeries.stats]
    exact median_eq_amended data h

/-- Witness for C2's amended statement at the one-element run [3]. -/
theorem timer_stats_formulas_witness :
    ∃ stats : TimerStats,
      timersStats (((StatsShelf.init).addAll
          (([3] : List ℚ).map (Metric.timer "t"))).timers) =
        some [("t", stats)]
      ∧ stats.count = ([3] : List ℚ).length
      ∧ stats.min ∈ ([3] : List ℚ) ∧ (∀ x ∈ ([3] : List ℚ), stats.min ≤ x)
      ∧ stats.max ∈ ([3] : List ℚ) ∧ (∀ x ∈ ([3] : List ℚ), x ≤ stats.max)
      ∧ stats.mean = ([3] : List ℚ).sum / ([3] : List ℚ).length
      ∧ stats.median = amendedMedian [3] :=
  timer_stats_formulas "t" [3] (by simp)

-- ### Reachable shelves have non-empty timer lists (claim C10)

/-- Shelf states reachable by any sequence of adds and clears from a
fresh shelf. -/
inductive Reachable : StatsShelf → Prop where
  | init : Reachable StatsShelf.init
  | add {s : StatsShelf} (m : Metric) : Reachable s → Reachable (s.add m)
  | clear {s : StatsShelf} : Reachable s → Reachable (s.clear)

theorem timersStats_isSome (l : List (String × List ℚ))
    (h : ∀ p ∈ l, p.2 ≠ []) : (timersStats l).isSome = true := by
  induction l with
  | nil => rfl
  | cons p t ih =>
      obtain ⟨n, data⟩ := p
      have hdata : data ≠ [] := h (n, data) (List.mem_cons_self _ _)
      have hmk : DataSeries.make data =
          Except.ok ⟨data.length, data.insertionSort (· ≤ ·)⟩ := by
        rw [DataSeries.make,
          if_neg (by have := List.length_pos.mpr hdata; omega)]
      have ht := ih (fun q hq => h q (List.mem_cons_of_mem _ hq))
      obtain ⟨r, hr⟩ := Option.isSome_iff_exists.mp ht
      rw [timersStats, hmk, hr]
      rfl

/-- C10: on every reachable shelf state, every name in the timers map is
bound to a non-empty value list, so `DataSeries.__init__` never takes its
empty-data-set error branch when `StatsShelf.timers` computes the
statistics at snapshot time. -/
theorem reachable_timer_values_nonempty (s : StatsShelf)
    (h : Reachable s) :
    (∀ p ∈ s.timers, p.2 ≠ [])
    ∧ (∀ p ∈ s.timers, ∃ ds, DataSeries.make p.2 = Except.ok ds)
    ∧ (timersStats s.timers).isSome = true := by
  have hinv : ∀ p ∈ s.timers, p.2 ≠ [] := by
    induction h with
    | init => simp [StatsShelf.init]
    | clear _ _ => simp [StatsShelf.clear]
    | add m _ ih =>
        rename_i s' _
        cases m with
        | counter n c r =>
            simpa [StatsShelf.add, StatsShelf.addCounter] using ih
        | setM n v =>
            simpa [StatsShelf.add, StatsShelf.addSet] using ih
        | gauge n v =>
            simpa [StatsShelf.add, StatsShelf.addGauge] using ih
        | gaugeDelta n d =>
            cases hg : dictGet n s'.gauges <;>
              simp only [StatsShelf.add, StatsShelf.addGaugeDelta, hg] <;>
              simpa using ih
        | timer n ms =>
            intro p hp
            simp only [StatsShelf.add, StatsShelf.addTimer] at hp
            rcases mem_dictSet hp with rfl | hp'
            · simp
            · exact ih p hp'
  refine ⟨hinv, ?_, timersStats_isSome _ hinv⟩
  intro p hp
  exact ⟨⟨p.2.length, p.2.insertionSort (· ≤ ·)⟩, by
    rw [DataSeries.make,
      if_neg (by have := List.length_pos.mpr (hinv p hp); omega)]⟩

/-- Witness for C10 at the reachable shelf holding one timer sample. -/
theorem reachable_timer_values_witness :
    (timersStats (((StatsShelf.init).add
        (Metric.timer "t" 5)).timers)).isSome = true :=
  (reachable_timer_values_nonempty _
    (Reachable.add _ Reachable.init)).2.2

-- ### Request processing (claim C7)

/-- Python whitespace (`str.strip` / `str.isspace`) on a code point. -/
def isPySpace (c : ℕ) : Bool :=
  (9 ≤ c && c ≤ 13) || (28 ≤ c && c ≤ 32) || c = 133 || c = 160 || c = 5760
    || (8192 ≤ c && c ≤ 8202) || c = 8232 || c = 8233 || c = 8239
    || c = 8287 || c = 12288

/-- `str.strip()`: drop whitespace from both ends. -/
def stripPy (l : List ℕ) : List ℕ :=
  ((l.dropWhile isPySpace).reverse.dropWhile isPySpace).reverse

/-- `str.split("\n")`: split on every newline, keeping empty pieces. -/
def splitOnNl : List ℕ → List (List ℕ)
  | [] => [[]]
  | c :: t =>
      if c = 10 then [] :: splitOnNl t
      else
        match splitOnNl t with
        | [] => [[c]]
        | h :: r => (c :: h) :: r

/-- `[line.strip() for line in request.split("\n") if line.strip()]`. -/
def cleanLines (request : List ℕ) : List (List ℕ) :=
  ((splitOnNl request).map stripPy).filter (fun l => decide (l ≠ []))

/-- The per-line loop of `QueueProcessor._process_request`: parse each
line; a line the parser rejects (`ValueError`) is recorded as a logged
parse error and skipped; a parsed metric is added to the shelf. Returns
the final shelf and the lines logged as parse errors. -/
def processLines (parse : List ℕ → Option Metric) :
    StatsShelf → List (List ℕ) → StatsShelf × List (List ℕ)
  | s, [] => (s, [])
  | s, line :: rest =>
      match parse line with
      | none =>
          let r := processLines parse s rest
          (r.1, line :: r.2)
      | some m => processLines parse (s.add m) rest

/-- `QueueProcessor._process_request`: split the request on newlines,
strip and drop blank lines, then run the per-line loop. -/
def processRequest (parse : List ℕ → Option Metric) (s : StatsShelf)
    (request : List ℕ) : StatsShelf × List (List ℕ) :=
  processLines parse s (cleanLines request)

theorem processLines_spec (parse : List ℕ → Option Metric)
    (lines : List (List ℕ)) (s : StatsShelf) :
    processLines parse s lines =
      (s.addAll (lines.filterMap parse),
        lines.filter (fun l => (parse l).isNone)) := by
  induction lines generalizing s with
  | nil => simp [processLines, StatsShelf.addAll]
  | cons line rest ih =>
      cases hp : parse line with
      | none =>
          simp [processLines, hp, ih, List.filterMap_cons, List.filter_cons]
      | some m =>
          simp only [processLines, hp, ih, List.filterMap_cons,
            List.filter_cons, Option.isNone_some, StatsShelf.addAll,
            List.foldl_cons]
          simp

/-- C7: processing a request splits it on newlines, silently drops empty
and whitespace-only lines, and aggregates exactly the lines the parser
accepts, in order; each rejected line is only logged, affecting neither
the shelf nor the handling of the other lines, and processing is total. -/
theorem process_request_isolates_failures
    (parse : List ℕ → Option Metric) (s : StatsShelf)
    (request : List ℕ) :
    processRequest parse s request =
      (s.addAll ((cleanLines request).filterMap parse),
        (cleanLines request).filter (fun l => (parse l).isNone))
    ∧ ∀ l ∈ cleanLines request, l ≠ [] := by
  constructor
  · exact processLines_spec parse (cleanLines request) s
  · intro l hl
    have := List.of_mem_filter hl
    simpa using this

/-- Witness for C7: the request "m:1\nx\n \n" under a parser accepting
only "m:1" aggregates the one good line and logs the bad line "x". -/
theorem process_request_witness :
    processRequest
      (fun l => if l = [109, 58, 49] then some (Metric.gauge "m" 1) else none)
      StatsShelf.init [109, 58, 49, 10, 120, 10, 32, 10] =
      (⟨[], [], [], [("m", 1)]⟩, [[120]]) := by
  have h := (process_request_isolates_failures
    (fun l => if l = [109, 58, 49] then some (Metric.gauge "m" 1) else none)
    StatsShelf.init [109, 58, 49, 10, 120, 10, 32, 10]).1
  rw [h]
  rfl

-- ### UDP datagram handling (claim C8)

/-- Is `b` a UTF-8 continuation byte (0x80–0xBF)? -/
def utf8Cont (b : ℕ) : Bool := 128 ≤ b && b ≤ 191

/-- Strict UTF-8 decoding of a byte list into code points, as Python's
`bytes.decode()` with the default strict error handler: `none` models
`UnicodeDecodeError` (overlong forms, surrogates, values above U+10FFFF
and truncated sequences all rejected). -/
def decodeUtf8 : List ℕ → Option (List ℕ)
  | [] => some []
  | b :: rest =>
      if b ≤ 127 then (decodeUtf8 rest).map (b :: ·)
      else if 194 ≤ b && b ≤ 223 then
        match rest with
        | c1 :: rest' =>
            if utf8Cont c1 then
              (decodeUtf8 rest').map (((b - 192) * 64 + (c1 - 128)) :: ·)
            else none
        | [] => none
      else if b = 224 then
        match rest with
        | c1 :: c2 :: rest' =>
            if (160 ≤ c1 && c1 ≤ 191) && utf8Cont c2 then
              (decodeUtf8 rest').map
                ((((b - 224) * 4096) + (c1 - 128) * 64 + (c2 - 128)) :: ·)
            else none
        | _ => none
      else if (225 ≤ b && b ≤ 236) || b = 238 || b = 239 then
        match rest with
        | c1 :: c2 :: rest' =>
            if utf8Cont c1 && utf8Cont c2 then
              (decodeUtf8 rest').map
                ((((b - 224) * 4096) + (c1 - 128) * 64 + (c2 - 128)) :: ·)
            else none
        | _ => none
      else if b = 237 then
        match rest with
        | c1 :: c2 :: rest' =>
            if (128 ≤ c1 && c1 ≤ 159) && utf8Cont c2 then
              (decodeUtf8 rest').map
                ((((b - 224) * 4096) + (c1 - 128) * 64 + (c2 - 128)) :: ·)
            else none
        | _ => none
      else if b = 240 then
        match rest with
        | c1 :: c2 :: c3 :: rest' =>
            if (144 ≤ c1 && c1 ≤ 191) && utf8Cont c2 && utf8Cont c3 then
              (decodeUtf8 rest').map
                ((((b - 240) * 262144) + (c1 - 128) * 4096
                  + (c2 - 128) * 64 + (c3 - 128)) :: ·)
            else none
        | _ => none
      else if 241 ≤ b && b ≤ 243 then
        match rest with
        | c1 :: c2 :: c3 :: rest' =>
            if utf8Cont c1 && utf8Cont c2 && utf8Cont c3 then
              (decodeUtf8 rest').map
                ((((b - 240) * 262144) + (c1 - 128) * 4096
                  + (c2 - 128) * 64 + (c3 - 128)) :: ·)
            else none
        | _ => none
      else if b = 244 then
        match rest with
        | c1 :: c2 :: c3 :: rest' =>
            if (128 ≤ c1 && c1 ≤ 143) && utf8Cont c2 && utf8Cont c3 then
              (decodeUtf8 rest').map
                ((((b - 240) * 262144) + (c1 - 128) * 4096
                  + (c2 - 128) * 64 + (c3 - 128)) :: ·)
            else none
        | _ => none
      else none

/-- One iteration of `SocketServer._queue_requests_udp` on a received
datagram: an empty datagram enqueues nothing (`if data:`), otherwise the
bytes are decoded with `data.decode()` (strict UTF-8) and the string is
enqueued with `put_nowait`; `Except.error` models the
`UnicodeDecodeError` escaping the receive loop. -/
def queueRequestsUdpStep (data : List ℕ) :
    Except Unit (List (List ℕ)) :=
  if data = [] then Except.ok []
  else
    match decodeUtf8 data with
    | some s => Except.ok [s]
    | none => Except.error ()

/-- C8 counterexample: the non-empty datagram [0xFF] is not valid UTF-8;
the receive loop raises `UnicodeDecodeError` instead of enqueuing a
replacement-decoded string. -/
theorem udp_decode_counterexample :
    queueRequestsUdpStep [255] = Except.error () := by rfl

/-- C8 amended: the receive loop decodes datagrams with *strict* UTF-8.
Every non-empty datagram that is valid UTF-8 is decoded and pushed onto
the queue without blocking; an invalid datagram raises
`UnicodeDecodeError` out of the loop (no replacement decoding). -/
theorem udp_valid_datagram_enqueued (data s : List ℕ) (hne : data ≠ [])
    (hdec : decodeUtf8 data = some s) :
    queueRequestsUdpStep data = Except.ok [s] := by
  rw [queueRequestsUdpStep, if_neg hne, hdec]

/-- Witness for C8's amended statement: the datagram "hé" (0x68 0xC3
0xA9) decodes to code points [104, 233] and is enqueued. -/
theorem udp_valid_datagram_witness :
    queueRequestsUdpStep [104, 195, 169] = Except.ok [[104, 233]] :=
  udp_valid_datagram_enqueued [104, 195, 169] [104, 233] (by decide)
    (by decide)

-- ### TCP connection framing (claim C6)

/-- Python line boundaries recognised by `str.splitlines`. -/
def isLineBoundary (c : ℕ) : Bool :=
  c = 10 || c = 11 || c = 12 || c = 13 || c = 28 || c = 29 || c = 30
    || c = 133 || c = 8232 || c = 8233

/-- `str.splitlines(True)`: split after every line boundary, keeping the
line endings ("\r\n" counts as a single boundary); a trailing piece with
no boundary becomes a final line. `acc` holds the current line reversed. -/
def splitlinesKeepAux (acc : List ℕ) : List ℕ → List (List ℕ)
  | [] => if acc = [] then [] else [acc.reverse]
  | [c] =>
      if isLineBoundary c then [acc.reverse ++ [c]]
      else [(c :: acc).reverse]
  | c1 :: c2 :: rest =>
      if c1 = 13 && c2 = 10 then
        (acc.reverse ++ [13, 10]) :: splitlinesKeepAux [] rest
      else if isLineBoundary c1 then
        (acc.reverse ++ [c1]) :: splitlinesKeepAux [] (c2 :: rest)
      else splitlinesKeepAux (c1 :: acc) (c2 :: rest)

def splitlinesKeep (l : List ℕ) : List (List ℕ) := splitlinesKeepAux [] l

/-- `s.endswith('\n')`. -/
def endsWithNl (l : List ℕ) : Bool := l.getLast? = some (10 : ℕ)

/-- The tail of one chunk iteration: if the last line has no final
newline, pop it into the carry; enqueue the join of the remaining lines.
Returns (enqueued string, new carry). -/
def tcpFinishChunk (lines : List (List ℕ)) : List ℕ × List ℕ :=
  if endsWithNl (lines.getLastD []) then (lines.flatten, [])
  else ((lines.dropLast).flatten, lines.getLastD [])

/-- One chunk of `_enqueue_from_connection`: split the decoded chunk into
lines keeping endings, prepend the carried partial line to the first
line, then pop/enqueue via `tcpFinishChunk`. The `[carry]` fallback
models the `IndexError` branch that is unreachable for a non-empty
chunk. -/
def tcpProcessChunk (carry decoded : List ℕ) : List ℕ × List ℕ :=
  let ls := splitlinesKeep decoded
  tcpFinishChunk
    (if carry = [] then ls
     else
       match ls with
       | [] => [carry]
       | l0 :: rest => (carry ++ l0) :: rest)

/-- The receive loop of `_enqueue_from_connection` over the successive
`recv` results: an empty chunk means EOF (`break`); a chunk that is not
valid UTF-8 raises `UnicodeDecodeError` (the `false` flag). Returns the
enqueued strings, the final carry, and whether the loop ended cleanly. -/
def tcpLoop (carry : List ℕ) :
    List (List ℕ) → List (List ℕ) × List ℕ × Bool
  | [] => ([], carry, true)
  | chunk :: rest =>
      if chunk = [] then ([], carry, true)
      else
        match decodeUtf8 chunk with
        | none => ([], carry, false)
        | some s =>
            let pc := tcpProcessChunk carry s
            let r := tcpLoop pc.2 rest
            (pc.1 :: r.1, r.2.1, r.2.2)

/-- All strings the worker enqueues for a connection, including the
residual carry flushed by the `finally:` block (on EOF and also when an
exception escapes the loop). -/
def tcpEnqueued (chunks : List (List ℕ)) : List (List ℕ) :=
  let r := tcpLoop [] chunks
  r.1 ++ (if r.2.1 = [] then [] else [r.2.1])

theorem flatten_splitlinesKeepAux (acc l : List ℕ) :
    (splitlinesKeepAux acc l).flatten = acc.reverse ++ l := by
  induction acc, l using splitlinesKeepAux.induct with
  | case1 => simp [splitlinesKeepAux]
  | case2 a h => simp [splitlinesKeepAux, h]
  | case3 a c h => simp [splitlinesKeepAux, h]
  | case4 a c h => simp [splitlinesKeepAux, h]
  | case5 a c1 c2 rest h ih =>
      simp only [Bool.and_eq_true, decide_eq_true_eq] at h
      obtain ⟨rfl, rfl⟩ := h
      simp [splitlinesKeepAux, ih]
  | case6 a c1 c2 rest h hb ih =>
      simp [splitlinesKeepAux, h, hb, ih]
  | case7 a c1 c2 rest h hb ih =>
      simp [splitlinesKeepAux, h, hb, ih]

theorem flatten_splitlinesKeep (l : List ℕ) :
    (splitlinesKeep l).flatten = l := by
  simpa using flatten_splitlinesKeepAux [] l

theorem splitlinesKeep_ne_nil {l : List ℕ} (h : l ≠ []) :
    splitlinesKeep l ≠ [] := by
  intro hnil
  have := flatten_splitlinesKeep l
  rw [hnil] at this
  exact h this.symm

theorem tcpFinishChunk_spec (lines : List (List ℕ)) (h : lines ≠ []) :
    (tcpFinishChunk lines).1 ++ (tcpFinishChunk lines).2 = lines.flatten := by
  rcases List.eq_nil_or_concat lines with rfl | ⟨L, b, rfl⟩
  · exact absurd rfl h
  · rw [tcpFinishChunk]
    simp only [List.concat_eq_append, List.getLastD_concat,
      List.dropLast_concat]
    by_cases hew : endsWithNl b
    · rw [if_pos hew]
      simp
    · rw [if_neg hew]
      simp

theorem tcpProcessChunk_spec (carry decoded : List ℕ) :
    (tcpProcessChunk carry decoded).1 ++ (tcpProcessChunk carry decoded).2 =
      carry ++ decoded := by
  have hls : (splitlinesKeep decoded).flatten = decoded :=
    flatten_splitlinesKeep decoded
  rw [tcpProcessChunk]
  by_cases hc : carry = []
  · subst hc
    rw [if_pos rfl]
    cases hsplit : splitlinesKeep decoded with
    | nil =>
        have hdec : decoded = [] := by
          rw [hsplit] at hls
          exact hls.symm
        subst hdec
        rfl
    | cons l0 rest =>
        rw [tcpFinishChunk_spec _ (by simp)]
        rw [hsplit] at hls
        simpa using hls
  · rw [if_neg hc]
    cases hsplit : splitlinesKeep decoded with
    | nil =>
        have hdec : decoded = [] := by
          rw [hsplit] at hls
          exact hls.symm
        show (tcpFinishChunk [carry]).1 ++ (tcpFinishChunk [carry]).2 =
          carry ++ decoded
        rw [tcpFinishChunk_spec [carry] (by simp)]
        simp [hdec]
    | cons l0 rest =>
        show (tcpFinishChunk ((carry ++ l0) :: rest)).1 ++
          (tcpFinishChunk ((carry ++ l0) :: rest)).2 = carry ++ decoded
        rw [tcpFinishChunk_spec _ (by simp)]
        rw [hsplit] at hls
        simp only [List.flatten_cons, List.append_assoc] at hls ⊢
        rw [hls]

/-- Invariant of the receive loop over valid, non-empty chunks: the loop
ends cleanly and the enqueued strings plus the final carry spell out the
initial carry followed by all decoded chunk text. -/
theorem tcpLoop_spec (chunks ds : List (List ℕ))
    (h : List.Forall₂ (fun c d => c ≠ [] ∧ decodeUtf8 c = some d)
      chunks ds) (carry : List ℕ) :
    (tcpLoop carry chunks).2.2 = true
    ∧ (tcpLoop carry chunks).1.flatten ++ (tcpLoop carry chunks).2.1 =
        carry ++ ds.flatten := by
  induction h generalizing carry with
  | nil => simp [tcpLoop]
  | cons hcd htail ih =>
      rename_i c d cs dsx
      obtain ⟨hcne, hdec⟩ := hcd
      rw [tcpLoop, if_neg hcne, hdec]
      obtain ⟨hok, hinv⟩ := ih (tcpProcessChunk carry d).2
      refine ⟨hok, ?_⟩
      have hpc := tcpProcessChunk_spec carry d
      simp only [List.flatten_cons, List.append_assoc]
      rw [hinv, ← List.append_assoc, hpc, List.append_assoc]

/-- C6 amended: for a TCP connection whose successive `recv` chunks are
all non-empty and individually valid UTF-8 (so the stream is split at
character boundaries), the concatenation of all enqueued request strings
— the trailing carry flushed on EOF included — equals the full decoded
byte stream. (Strict per-chunk decoding replaces the claim's
arbitrary-split reading: a chunk boundary inside a multi-byte character
raises `UnicodeDecodeError` and loses the stream's tail.) -/
theorem tcp_framing_concat (chunks ds : List (List ℕ))
    (h : List.Forall₂ (fun c d => c ≠ [] ∧ decodeUtf8 c = some d)
      chunks ds) :
    (tcpEnqueued chunks).flatten = ds.flatten := by
  obtain ⟨hok, hinv⟩ := tcpLoop_spec chunks ds h []
  rw [tcpEnqueued]
  by_cases hcarry : (tcpLoop [] chunks).2.1 = []
  · rw [if_pos hcarry]
    rw [hcarry] at hinv
    simpa using hinv
  · rw [if_neg hcarry]
    rw [List.flatten_append]
    simpa using hinv

/-- C6 counterexample: the valid two-byte UTF-8 stream 0xC3 0xA9 ("é")
delivered as the byte-level split [0xC3], [0xA9] makes the first chunk's
strict decode raise, and nothing at all is enqueued: the concatenation of
the enqueued request strings is empty, not the delivered stream. -/
theorem tcp_framing_counterexample :
    (tcpEnqueued [[195], [169]]).flatten = ([] : List ℕ)
    ∧ decodeUtf8 ([195] ++ [169]) = some [233]
    ∧ ([233] : List ℕ) ≠ ([] : List ℕ) :=
  ⟨rfl, rfl, by decide⟩

/-- Witness for C6's amended statement: the chunks "m:1\nq" and ":2"
(ASCII, hence valid UTF-8) enqueue strings spelling the whole stream. -/
theorem tcp_framing_witness :
    (tcpEnqueued [[109, 58, 49, 10, 113], [58, 50]]).flatten =
      ([109, 58, 49, 10, 113, 58, 50] : List ℕ) := by
  have h := tcp_framing_concat [[109, 58, 49, 10, 113], [58, 50]]
    [[109, 58, 49, 10, 113], [58, 50]]
    (List.Forall₂.cons ⟨by decide, by decide⟩
      (List.Forall₂.cons ⟨by decide, by decide⟩ List.Forall₂.nil))
  rw [h]
  decide

-- ### Collector address parsing (claim C9)

/-- Python whitespace on a character. -/
def isPySpaceChar (c : Char) : Bool := isPySpace c.toNat

/-- `str.strip()` over characters. -/
def pyStripChars (l : List Char) : List Char :=
  ((l.dropWhile isPySpaceChar).reverse.dropWhile isPySpaceChar).reverse

/-- Python `str.split(sep)` for a one-character separator: every
occurrence splits, empty pieces kept (`"".split(',') == ['']`). -/
def splitOnChar (sep : Char) : List Char → List (List Char)
  | [] => [[]]
  | c :: t =>
      if c = sep then [] :: splitOnChar sep t
      else
        match splitOnChar sep t with
        | [] => [[c]]
        | h :: r => (c :: h) :: r

/-- The value of a decimal digit run, or `none` if empty or non-digit. -/
def digitsToNat (ds : List Char) : Option ℕ :=
  if ds = [] then none
  else if ds.all Char.isDigit then
    some (ds.foldl (fun acc c => acc * 10 + (c.toNat - 48)) 0)
  else none

/-- Python `int(s)`: optional surrounding whitespace, an optional sign,
then decimal digits; `none` models the `ValueError` (underscore grouping
and non-ASCII digits are not modelled). -/
def pyInt (s : List Char) : Option ℤ :=
  match pyStripChars s with
  | '+' :: ds => (digitsToNat ds).map (fun n => (n : ℤ))
  | '-' :: ds => (digitsToNat ds).map (fun n => -(n : ℤ))
  | ds => (digitsToNat ds).map (fun n => (n : ℤ))

/-- The port field of one split address: `len(address) > 1 and
address[1]` — the second piece, when present and non-empty. -/
def explicitPortStr (address : List (List Char)) : Option (List Char) :=
  match address with
  | _ :: p :: _ => if p = [] then none else some p
  | _ => none

/-- The port the loop records for one address: the parsed explicit port
(0 stands in for the unreachable unparsable case) or the default 8125. -/
def portOfTuple (address : List (List Char)) : ℤ :=
  match explicitPortStr address with
  | some p => (pyInt p).getD 0
  | none => 8125

/-- Does the loop stop with an error? True when some address has an
explicit port that fails to parse, is out of [1,65535], or equals a port
recorded for an earlier address (`seen`). Defaulted ports are recorded in
`seen` but never themselves checked. -/
def hasOffendingPort (seen : List ℤ) : List (List (List Char)) → Bool
  | [] => false
  | a :: rest =>
      (match explicitPortStr a with
       | some p =>
           match pyInt p with
           | none => true
           | some port =>
               decide (port < 1) || decide (port > 65535)
                 || decide (port ∈ seen)
       | none => false)
      || hasOffendingPort (portOfTuple a :: seen) rest

/-- The loop of `App.get_addresses_with_unique_ports`: for each split
address, when a non-empty port field is present, parse it, reject it when
out of [1,65535] or already in the `ports` set; otherwise use the default
port 8125 with no check. Either way the chosen port joins `ports`. -/
def gawupLoop (ports : List ℤ) :
    List (List (List Char)) → Except String (List (List Char × ℤ))
  | [] => Except.ok []
  | address :: rest =>
      let host := address.headD []
      match explicitPortStr address with
      | some portStr =>
          match pyInt portStr with
          | none => Except.error "invalid literal for int()"
          | some port =>
              if port < 1 ∨ port > 65535 then
                Except.error "Port is out of range"
              else if port ∈ ports then
                Except.error "Port is already specified before"
              else (gawupLoop (port :: ports) rest).map ((host, port) :: ·)
      | none => (gawupLoop ((8125 : ℤ) :: ports) rest).map
          ((host, (8125 : ℤ)) :: ·)

/-- `App.get_addresses_with_unique_ports`: split the flag on commas,
strip and split each address on colons, then run the loop. -/
def getAddressesWithUniquePorts (addresses : List Char) :
    Except String (List (List Char × ℤ)) :=
  gawupLoop []
    ((splitOnChar ',' addresses).map (fun a => splitOnChar ':' (pyStripChars a)))

theorem gawup_characterization (tuples : List (List (List Char)))
    (ports : List ℤ) :
    (hasOffendingPort ports tuples = false →
        gawupLoop ports tuples =
          Except.ok (tuples.map (fun a => (a.headD [], portOfTuple a))))
    ∧ (hasOffendingPort ports tuples = true →
        ∃ e, gawupLoop ports tuples = Except.error e) := by
  induction tuples generalizing ports with
  | nil => simp [hasOffendingPort, gawupLoop]
  | cons a rest ih =>
      cases hexp : explicitPortStr a with
      | none =>
          have hport : portOfTuple a = 8125 := by
            simp [portOfTuple, hexp]
          constructor
          · intro hb
            simp only [hasOffendingPort, hexp, Bool.false_or] at hb
            rw [hport] at hb
            have hok := (ih ((8125 : ℤ) :: ports)).1 hb
            simp only [gawupLoop, hexp, hok, Except.map, List.map_cons,
              hport]
          · intro hb
            simp only [hasOffendingPort, hexp, Bool.false_or] at hb
            rw [hport] at hb
            obtain ⟨e, he⟩ := (ih ((8125 : ℤ) :: ports)).2 hb
            exact ⟨e, by simp only [gawupLoop, hexp, he, Except.map]⟩
      | some p =>
          cases hint : pyInt p with
          | none =>
              constructor
              · intro hb
                simp [hasOffendingPort, hexp, hint] at hb
              · intro _
                exact ⟨"invalid literal for int()",
                  by simp only [gawupLoop, hexp, hint]⟩
          | some port =>
              have hport : portOfTuple a = port := by
                simp [portOfTuple, hexp, hint]
              by_cases hrange : port < 1 ∨ port > 65535
              · constructor
                · intro hb
                  rcases hrange with hr | hr <;>
                    simp [hasOffendingPort, hexp, hint, hr] at hb
                · intro _
                  refine ⟨"Port is out of range", ?_⟩
                  simp only [gawupLoop, hexp, hint]
                  rw [if_pos hrange]
              · by_cases hdup : port ∈ ports
                · constructor
                  · intro hb
                    simp [hasOffendingPort, hexp, hint, hdup] at hb
                  · intro _
                    refine ⟨"Port is already specified before", ?_⟩
                    simp only [gawupLoop, hexp, hint]
                    rw [if_neg hrange, if_pos hdup]
                · have hhead : (match explicitPortStr a with
                      | some p =>
                          match pyInt p with
                          | none => true
                          | some port =>
                              decide (port < 1) || decide (port > 65535)
                                || decide (port ∈ ports)
                      | none => false) = false := by
                    push_neg at hrange
                    simp [hexp, hint, hdup, not_lt.mpr hrange.1,
                      not_lt.mpr hrange.2]
                  constructor
                  · intro hb
                    simp only [hasOffendingPort, hhead, Bool.false_or] at hb
                    rw [hport] at hb
                    have hok := (ih (port :: ports)).1 hb
                    simp only [gawupLoop, hexp, hint]
                    rw [if_neg hrange, if_neg hdup, hok]
                    simp [Except.map, hport]
                  · intro hb
                    simp only [hasOffendingPort, hhead, Bool.false_or] at hb
                    rw [hport] at hb
                    obtain ⟨e, he⟩ := (ih (port :: ports)).2 hb
                    refine ⟨e, ?_⟩
                    simp only [gawupLoop, hexp, hint]
                    rw [if_neg hrange, if_neg hdup, he]
                    rfl

/-- C9 counterexample: "localhost,otherhost" assigns the default port
8125 to both addresses — the same port for two addresses in one list —
yet parsing returns them instead of raising a startup error, because the
duplicate check only runs for explicitly given ports. -/
theorem unique_ports_counterexample :
    getAddressesWithUniquePorts ("localhost,otherhost".toList) =
      Except.ok [("localhost".toList, 8125), ("otherhost".toList, 8125)] := by
  rfl

/-- C9 amended: address parsing raises a startup error iff some address
carries an explicit port that fails to parse as an integer, lies outside
[1,65535], or equals the port (explicit or defaulted) of an earlier
address in the list; ports left unspecified default to 8125 and are
recorded for later uniqueness checks but are never themselves checked.
Otherwise it returns the (host, port) pairs in order. -/
theorem get_addresses_characterization (addresses : List Char) :
    (hasOffendingPort []
        ((splitOnChar ',' addresses).map
          (fun a => splitOnChar ':' (pyStripChars a))) = false →
      getAddressesWithUniquePorts addresses =
        Except.ok (((splitOnChar ',' addresses).map
          (fun a => splitOnChar ':' (pyStripChars a))).map
            (fun a => (a.headD [], portOfTuple a))))
    ∧ (hasOffendingPort []
        ((splitOnChar ',' addresses).map
          (fun a => splitOnChar ':' (pyStripChars a))) = true →
      ∃ e, getAddressesWithUniquePorts addresses = Except.error e) :=
  gawup_characterization _ []

/-- Witness for C9's amended statement: "h1:200,h2" has no offending
port and parses to ("h1", 200), ("h2", 8125). -/
theorem get_addresses_witness :
    getAddressesWithUniquePorts ("h1:200,h2".toList) =
      Except.ok [("h1".toList, 200), ("h2".toList, 8125)] := by
  have h := (get_addresses_characterization ("h1:200,h2".toList)).1
    (by decide)
  rw [h]
  rfl

-- ### Snapshot-and-clear independence (claim C5)

/-- `StatsShelf` with Python's object semantics made explicit: the
`sets` and `timers` dicts bind names to heap addresses of mutable
set/list objects, exactly as the Python dicts hold references, so a
`dict.copy()` (used by `counters()`/`gauges()`/`sets()`/`timers_data()`)
shares those objects. Counters and gauges hold immutable floats and are
stored inline. `nextAddr` is the allocator: fresh objects get fresh
addresses. -/
structure RefShelf : Type where
  nextAddr : ℕ
  heapSets : List (ℕ × List String)
  heapTimers : List (ℕ × List ℚ)
  counters : List (String × ℚ)
  gauges : List (String × ℚ)
  sets : List (String × ℕ)
  timers : List (String × ℕ)
deriving DecidableEq

def RefShelf.init : RefShelf := ⟨0, [], [], [], [], [], []⟩

/-- `_add_counter` on the reference shelf (floats are immutable, so this
matches the value-level model). -/
def RefShelf.addCounter (s : RefShelf) (name : String) (count : ℤ)
    (sampleRate : ℚ) : RefShelf :=
  let prev := match dictGet name s.counters with
    | none => 0
    | some v => v
  { s with counters :=
      dictSet name (prev + (count : ℚ) / sampleRate) s.counters }

/-- `_add_gauge` on the reference shelf. -/
def RefShelf.addGauge (s : RefShelf) (name : String) (value : ℚ) :
    RefShelf :=
  { s with gauges := dictSet name value s.gauges }

/-- `_add_gauge_delta` on the reference shelf. -/
def RefShelf.addGaugeDelta (s : RefShelf) (name : String) (delta : ℚ) :
    RefShelf :=
  match dictGet name s.gauges with
  | none => { s with gauges := dictSet name delta s.gauges }
  | some v => { s with gauges := dictSet name (v + delta) s.gauges }

/-- `_add_set`: `setdefault` either mutates the existing set object in
place (same address, snapshot copies would see it) or allocates a fresh
set object at a fresh address. -/
def RefShelf.addSet (s : RefShelf) (name value : String) : RefShelf :=
  match dictGet name s.sets with
  | some addr =>
      let old := (dictGet addr s.heapSets).getD []
      { s with heapSets := dictSet addr (pySetAdd old value) s.heapSets }
  | none =>
      { s with
        nextAddr := s.nextAddr + 1,
        heapSets := dictSet s.nextAddr (pySetAdd [] value) s.heapSets,
        sets := dictSet name s.nextAddr s.sets }

/-- `_add_timer`: `setdefault(...).append` mutates in place or allocates
a fresh list object. -/
def RefShelf.addTimer (s : RefShelf) (name : String) (ms : ℚ) : RefShelf :=
  match dictGet name s.timers with
  | some addr =>
      let old := (dictGet addr s.heapTimers).getD []
      { s with heapTimers := dictSet addr (old ++ [ms]) s.heapTimers }
  | none =>
      { s with
        nextAddr := s.nextAddr + 1,
        heapTimers := dictSet s.nextAddr [ms] s.heapTimers,
        timers := dictSet name s.nextAddr s.timers }

/-- `StatsShelf.add` on the reference shelf. -/
def RefShelf.add (s : RefShelf) : Metric → RefShelf
  | .counter name count rate => s.addCounter name count rate
  | .setM name value => s.addSet name value
  | .gauge name value => s.addGauge name value
  | .gaugeDelta name delta => s.addGaugeDelta name delta
  | .timer name ms => s.addTimer name ms

def RefShelf.addAll (s : RefShelf) (ms : List Metric) : RefShelf :=
  ms.foldl RefShelf.add s

/-- The four maps captured by `_get_metrics_and_clear_shelf` before the
clear: shallow dict copies, so `sets`/`timers` still hold the object
references. -/
structure RefSnapshot : Type where
  counters : List (String × ℚ)
  gauges : List (String × ℚ)
  sets : List (String × ℕ)
  timers : List (String × ℕ)
deriving DecidableEq

/-- Read the four maps (`counters()`, `gauges()`, `sets()`,
`timers_data()` are `.copy()`s) and then `clear()` the shelf: the dicts
are rebound to fresh empty ones, the captured copies keep the old
entries, and the heap (the objects themselves) is untouched. -/
def RefShelf.snapshotAndClear (s : RefShelf) : RefSnapshot × RefShelf :=
  (⟨s.counters, s.gauges, s.sets, s.timers⟩,
    { s with counters := [], gauges := [], sets := [], timers := [] })

/-- The value a snapshot denotes when its references are read against a
shelf's heap. -/
def snapshotValue (snap : RefSnapshot) (s : RefShelf) :
    List (String × ℚ) × List (String × ℚ) × List (String × List String)
      × List (String × List ℚ) :=
  (snap.counters, snap.gauges,
    snap.sets.map (fun p => (p.1, (dictGet p.2 s.heapSets).getD [])),
    snap.timers.map (fun p => (p.1, (dictGet p.2 s.heapTimers).getD [])))

/-- Heap well-formedness: every object referenced by the dicts was
allocated (its address is below the allocator counter). -/
def RefShelf.WF (s : RefShelf) : Prop :=
  (∀ p ∈ s.sets, p.2 < s.nextAddr) ∧ (∀ p ∈ s.timers, p.2 < s.nextAddr)

/-- Invariant of the shelf after the clear: all live references are at
or above `n0` (the allocator value at snapshot time) and the heap below
`n0` agrees with the snapshot-time heap of `base`. -/
def PostClearInv (n0 : ℕ) (base cur : RefShelf) : Prop :=
  n0 ≤ cur.nextAddr
  ∧ (∀ p ∈ cur.sets, n0 ≤ p.2)
  ∧ (∀ p ∈ cur.timers, n0 ≤ p.2)
  ∧ (∀ a, a < n0 → dictGet a cur.heapSets = dictGet a base.heapSets)
  ∧ (∀ a, a < n0 → dictGet a cur.heapTimers = dictGet a base.heapTimers)

theorem postClearInv_add (n0 : ℕ) (base cur : RefShelf) (m : Metric)
    (h : PostClearInv n0 base cur) : PostClearInv n0 base (cur.add m) := by
  obtain ⟨hn, hsets, htimers, hhs, hht⟩ := h
  cases m with
  | counter name c r =>
      exact ⟨hn, hsets, htimers, hhs, hht⟩
  | gauge name v =>
      exact ⟨hn, hsets, htimers, hhs, hht⟩
  | gaugeDelta name d =>
      have hfields : (cur.add (Metric.gaugeDelta name d)).nextAddr =
            cur.nextAddr
          ∧ (cur.add (Metric.gaugeDelta name d)).sets = cur.sets
          ∧ (cur.add (Metric.gaugeDelta name d)).timers = cur.timers
          ∧ (cur.add (Metric.gaugeDelta name d)).heapSets = cur.heapSets
          ∧ (cur.add (Metric.gaugeDelta name d)).heapTimers =
            cur.heapTimers := by
        cases hg : dictGet name cur.gauges <;>
          simp [RefShelf.add, RefShelf.addGaugeDelta, hg]
      obtain ⟨h1, h2, h3, h4, h5⟩ := hfields
      rw [PostClearInv, h1, h2, h3, h4, h5]
      exact ⟨hn, hsets, htimers, hhs, hht⟩
  | setM name v =>
      cases hg : dictGet name cur.sets with
      | some addr =>
          have haddr : n0 ≤ addr := hsets _ (dictGet_mem hg)
          have hfields : (cur.add (Metric.setM name v)).nextAddr =
                cur.nextAddr
              ∧ (cur.add (Metric.setM name v)).sets = cur.sets
              ∧ (cur.add (Metric.setM name v)).timers = cur.timers
              ∧ (cur.add (Metric.setM name v)).heapSets =
                  dictSet addr
                    (pySetAdd ((dictGet addr cur.heapSets).getD []) v)
                    cur.heapSets
              ∧ (cur.add (Metric.setM name v)).heapTimers =
                cur.heapTimers := by
            simp [RefShelf.add, RefShelf.addSet, hg]
          obtain ⟨h1, h2, h3, h4, h5⟩ := hfields
          rw [PostClearInv, h1, h2, h3, h4, h5]
          refine ⟨hn, hsets, htimers, ?_, hht⟩
          intro a ha
          rw [dictGet_dictSet_ne _ _ (by omega : addr ≠ a)]
          exact hhs a ha
      | none =>
          have hfields : (cur.add (Metric.setM name v)).nextAddr =
                cur.nextAddr + 1
              ∧ (cur.add (Metric.setM name v)).sets =
                  dictSet name cur.nextAddr cur.sets
              ∧ (cur.add (Metric.setM name v)).timers = cur.timers
              ∧ (cur.add (Metric.setM name v)).heapSets =
                  dictSet cur.nextAddr (pySetAdd [] v) cur.heapSets
              ∧ (cur.add (Metric.setM name v)).heapTimers =
                cur.heapTimers := by
            simp [RefShelf.add, RefShelf.addSet, hg]
          obtain ⟨h1, h2, h3, h4, h5⟩ := hfields
          rw [PostClearInv, h1, h2, h3, h4, h5]
          refine ⟨by omega, ?_, htimers, ?_, hht⟩
          · intro p hp
            rcases mem_dictSet hp with rfl | hp'
            · exact hn
            · exact hsets p hp'
          · intro a ha
            rw [dictGet_dictSet_ne _ _ (by omega : cur.nextAddr ≠ a)]
            exact hhs a ha
  | timer name ms =>
      cases hg : dictGet name cur.timers with
      | some addr =>
          have haddr : n0 ≤ addr := htimers _ (dictGet_mem hg)
          have hfields : (cur.add (Metric.timer name ms)).nextAddr =
                cur.nextAddr
              ∧ (cur.add (Metric.timer name ms)).sets = cur.sets
              ∧ (cur.add (Metric.timer name ms)).timers = cur.timers
              ∧ (cur.add (Metric.timer name ms)).heapSets = cur.heapSets
              ∧ (cur.add (Metric.timer name ms)).heapTimers =
                  dictSet addr
                    (((dictGet addr cur.heapTimers).getD []) ++ [ms])
                    cur.heapTimers := by
            simp [RefShelf.add, RefShelf.addTimer, hg]
          obtain ⟨h1, h2, h3, h4, h5⟩ := hfields
          rw [PostClearInv, h1, h2, h3, h4, h5]
          refine ⟨hn, hsets, htimers, hhs, ?_⟩
          intro a ha
          rw [dictGet_dictSet_ne _ _ (by omega : addr ≠ a)]
          exact hht a ha
      | none =>
          have hfields : (cur.add (Metric.timer name ms)).nextAddr =
                cur.nextAddr + 1
              ∧ (cur.add (Metric.timer name ms)).sets = cur.sets
              ∧ (cur.add (Metric.timer name ms)).timers =
                  dictSet name cur.nextAddr cur.timers
              ∧ (cur.add (Metric.timer name ms)).heapSets = cur.heapSets
              ∧ (cur.add (Metric.timer name ms)).heapTimers =
                  dictSet cur.nextAddr [ms] cur.heapTimers := by
            simp [RefShelf.add, RefShelf.addTimer, hg]
          obtain ⟨h1, h2, h3, h4, h5⟩ := hfields
          rw [PostClearInv, h1, h2, h3, h4, h5]
          refine ⟨by omega, hsets, ?_, hhs, ?_⟩
          · intro p hp
            rcases mem_dictSet hp with rfl | hp'
            · exact hn
            · exact htimers p hp'
          · intro a ha
            rw [dictGet_dictSet_ne _ _ (by omega : cur.nextAddr ≠ a)]
            exact hht a ha

theorem postClearInv_addAll (n0 : ℕ) (base : RefShelf) (ms : List Metric)
    (cur : RefShelf) (h : PostClearInv n0 base cur) :
    PostClearInv n0 base (cur.addAll ms) := by
  induction ms generalizing cur with
  | nil => exact h
  | cons m t ih =>
      have step : cur.addAll (m :: t) = (cur.add m).addAll t := by
        simp [RefShelf.addAll]
      rw [step]
      exact ih _ (postClearInv_add n0 base cur m h)

/-- C5: on a well-formed shelf, the snapshot-and-clear leaves all four
maps empty, and the value of the returned snapshot — its references read
against the mutated heap — is unchanged by any sequence of subsequent
adds: post-snapshot mutations only touch objects allocated after the
snapshot. -/
theorem snapshot_immune_to_later_adds (s : RefShelf) (hwf : s.WF)
    (ms : List Metric) :
    ((s.snapshotAndClear).2.counters = []
      ∧ (s.snapshotAndClear).2.gauges = []
      ∧ (s.snapshotAndClear).2.sets = []
      ∧ (s.snapshotAndClear).2.timers = [])
    ∧ snapshotValue (s.snapshotAndClear).1
        (((s.snapshotAndClear).2).addAll ms) =
      snapshotValue (s.snapshotAndClear).1 (s.snapshotAndClear).2 := by
  obtain ⟨hwfs, hwft⟩ := hwf
  refine ⟨⟨rfl, rfl, rfl, rfl⟩, ?_⟩
  have hinv0 : PostClearInv s.nextAddr s ((s.snapshotAndClear).2) := by
    refine ⟨le_refl _, ?_, ?_, ?_, ?_⟩ <;>
      simp [RefShelf.snapshotAndClear]
  have hinv := postClearInv_addAll s.nextAddr s ms _ hinv0
  obtain ⟨hn, _, _, hhs, hht⟩ := hinv
  rw [snapshotValue, snapshotValue]
  refine congrArg _ (congrArg _ ?_)
  refine congrArg₂ _ ?_ ?_
  · apply List.map_congr_left
    intro p hp
    have : p.2 < s.nextAddr := hwfs p hp
    rw [hhs p.2 this]
    simp [RefShelf.snapshotAndClear]
  · apply List.map_congr_left
    intro p hp
    have : p.2 < s.nextAddr := hwft p hp
    rw [hht p.2 this]
    simp [RefShelf.snapshotAndClear]

/-- Witness for C5: after snapshotting a shelf holding the set
{"a"} for "u", later adds to "u" and a new timer leave the snapshot's
dereferenced value unchanged. -/
theorem snapshot_immune_witness :
    snapshotValue
        (((RefShelf.init.add (Metric.setM "u" "a")).snapshotAndClear).1)
        ((((RefShelf.init.add (Metric.setM "u" "a")).snapshotAndClear).2).addAll
          [Metric.setM "u" "b", Metric.timer "t" 1]) =
      snapshotValue
        (((RefShelf.init.add (Metric.setM "u" "a")).snapshotAndClear).1)
        (((RefShelf.init.add (Metric.setM "u" "a")).snapshotAndClear).2) :=
  (snapshot_immune_to_later_adds (RefShelf.init.add (Metric.setM "u" "a"))
    (by constructor <;> decide) [Metric.setM "u" "b", Metric.timer "t" 1]).2

end Navdoon
